import Mathlib

/-!
Shallow embedding of the G-code command intake and queueing subsystem of
`src/Marlin/src/gcode/queue.h` (class `GCodeQueue`), and proofs of the
spec's claims about it.

Machine integers: `length`, `index_r`, `index_w` are `uint8_t` in the C++
source; they are modelled as `Nat` with explicit `% 256` wherever the C++
arithmetic can wrap.  Configuration constants (`BUFSIZE`, `MAX_CMD_SIZE`,
`NUM_SERIAL`) are compile-time parameters of the firmware and appear here
as explicit `Nat` arguments.  C strings are modelled as `List Nat` of byte
values; a bare string argument (such as an `enqueue`d command) is the list
of its bytes before the terminating NUL, while a fixed-size character
array (such as `injected_commands[64]`) is the list of all its bytes,
NULs included.  The build here is the multi-serial configuration
(`HAS_MULTI_SERIAL` enabled), matching the `port` member that `queue.h`
declares in `CommandLine`.
-/

namespace MarlinQueue

/-- One slot of the command ring: `GCodeQueue::CommandLine`
(queue.h lines 59-63).  `buffer` holds the bytes of the NUL-terminated
command string (content before the NUL); `skip_ok` and `port` are the
tag fields. -/
structure CommandLine where
  buffer : List Nat
  skip_ok : Bool
  port : Int
deriving Repr, DecidableEq, Inhabited

/-- `GCodeQueue::RingBuffer` (queue.h lines 68-103).  `commands` models the
fixed array `CommandLine commands[BUFSIZE]` as a list of length `BUFSIZE`. -/
structure RingBuffer where
  length : Nat
  index_r : Nat
  index_w : Nat
  commands : List CommandLine
deriving Repr, DecidableEq, Inhabited

/-- Which of the two positions `advance_pos` receives by reference:
`index_r` or `index_w`. -/
inductive PosSel where
  | r
  | w
deriving Repr, DecidableEq

namespace RingBuffer

/-- queue.h line 76: `inline void clear() { length = index_r = index_w = 0; }`.
The `commands` slots are not touched. -/
def clear (rb : RingBuffer) : RingBuffer :=
  { rb with length := 0, index_r := 0, index_w := 0 }

/-- queue.h line 78:
`void advance_pos(uint8_t &p, const int inc) { if (++p >= BUFSIZE) p = 0; length += inc; }`.
`p` is `index_r` or `index_w` according to `sel`; `++p` wraps modulo 256
(`uint8_t`), as does `length += inc` (modelled via `Int.emod 256`). -/
def advance_pos (BUFSIZE : Nat) (sel : PosSel) (inc : Int) (rb : RingBuffer) : RingBuffer :=
  match sel with
  | PosSel.r =>
      { rb with
        index_r := if BUFSIZE ≤ (rb.index_r + 1) % 256 then 0 else (rb.index_r + 1) % 256,
        length := (((rb.length : Int) + inc) % 256).toNat }
  | PosSel.w =>
      { rb with
        index_w := if BUFSIZE ≤ (rb.index_w + 1) % 256 then 0 else (rb.index_w + 1) % 256,
        length := (((rb.length : Int) + inc) % 256).toNat }

/-- queue.h line 94:
`inline bool full(uint8_t cmdCount=1) const { return length > (BUFSIZE - cmdCount); }`.
Both `uint8_t` operands are promoted to `int` in C++, so the subtraction
is exact integer subtraction (no wraparound). -/
def full (BUFSIZE : Nat) (rb : RingBuffer) (cmdCount : Nat) : Bool :=
  decide ((rb.length : Int) > (BUFSIZE : Int) - (cmdCount : Int))

/-- queue.h line 96: `inline bool occupied() const { return length != 0; }`. -/
def occupied (rb : RingBuffer) : Bool :=
  decide (rb.length ≠ 0)

/-- queue.h line 98: `inline bool empty() const { return !occupied(); }`. -/
def empty (rb : RingBuffer) : Bool :=
  !rb.occupied

/-- queue.h line 100:
`inline CommandLine& peek_next_command() { return commands[index_r]; }`. -/
def peek_next_command (rb : RingBuffer) : CommandLine :=
  rb.commands.getD rb.index_r default

/-- queue.h line 102:
`inline char* peek_next_command_string() { return peek_next_command().buffer; }`. -/
def peek_next_command_string (rb : RingBuffer) : List Nat :=
  rb.peek_next_command.buffer

/-- queue.h line 74:
`inline serial_index_t command_port() const { return TERN0(HAS_MULTI_SERIAL, commands[index_r].port); }`
(multi-serial configuration, so the port tag of the command at `index_r`). -/
def command_port (rb : RingBuffer) : Int :=
  (rb.commands.getD rb.index_r default).port

/-- Modelled from the spec: the body of `RingBuffer::commit_command`
(declared at queue.h lines 80-84, defined in queue.cpp, which is not in
src/).  Per spec section 4.1 (`enqueue`): "record the tag fields, advance
`write_index` modulo `BUFSIZE`, increment `length`".  It records `skip_ok`
and the serial port tag on the slot at `index_w` and advances `index_w`
with `advance_pos(index_w, 1)`. -/
def commit_command (BUFSIZE : Nat) (skip : Bool) (serial_ind : Int)
    (rb : RingBuffer) : RingBuffer :=
  RingBuffer.advance_pos BUFSIZE PosSel.w 1
    { rb with
      commands := rb.commands.set rb.index_w
        { rb.commands.getD rb.index_w default with skip_ok := skip, port := serial_ind } }

/-- Modelled from the spec: the body of `RingBuffer::enqueue` (declared at
queue.h lines 86-90, defined in queue.cpp, which is not in src/).  Per
spec section 4.1: "if `length == BUFSIZE` return false; else copy `cmd`
(truncated to `MAX_CMD_SIZE-1`, NUL-terminated) into slot `write_index`,
record the tag fields, advance `write_index` modulo `BUFSIZE`, increment
`length`, return true."  Returns the C++ return value paired with the
updated ring. -/
def enqueue (BUFSIZE MAX_CMD_SIZE : Nat) (cmd : List Nat) (skip : Bool)
    (serial_ind : Int) (rb : RingBuffer) : Bool × RingBuffer :=
  if rb.length = BUFSIZE then
    (false, rb)
  else
    (true,
      RingBuffer.commit_command BUFSIZE skip serial_ind
        { rb with
          commands := rb.commands.set rb.index_w
            { rb.commands.getD rb.index_w default with
                buffer := cmd.take (MAX_CMD_SIZE - 1) } })

/-- Modelled from the spec: `pop` (spec section 4.1: "precondition
`length > 0`.  Advances `read_index` modulo `BUFSIZE` and decrements
`length`"), realised in the source as `advance_pos(index_r, -1)`.  The
caller-side precondition is modelled as a guard so that arbitrary
operation sequences stay within the contract. -/
def pop (BUFSIZE : Nat) (rb : RingBuffer) : RingBuffer :=
  if 0 < rb.length then rb.advance_pos BUFSIZE PosSel.r (-1) else rb

end RingBuffer

/-- `GCodeQueue::SerialState` (queue.h lines 36-46). -/
structure SerialState where
  last_N : Int
  count : Nat
  line_buffer : List Nat
  input_state : Nat
deriving Repr, DecidableEq, Inhabited

/-- The static state of class `GCodeQueue` (queue.h lines 48, 108, 119, 124):
`serial_state[NUM_SERIAL]`, `ring_buffer`, `injected_commands_P`
(a nullable pointer into read-only memory, modelled as `Option` of the
pointed-to string's bytes) and `injected_commands[64]` (all 64 bytes). -/
structure GCodeQueue where
  serial_state : List SerialState
  ring_buffer : RingBuffer
  injected_commands_P : Option (List Nat)
  injected_commands : List Nat
deriving Repr, DecidableEq, Inhabited

/-- C `strncpy(dest, src, n)` where `dest` is the full destination array,
`src` the source string content (bytes before its NUL): copies
`src`-bytes into `dest[0..n)`, zero-filling once `src` is exhausted, and
leaves `dest[n..]` untouched.  Never writes past `n-1`. -/
def strncpy : List Nat → List Nat → Nat → List Nat
  | dest, _, 0 => dest
  | [], _, _ + 1 => []
  | _ :: ds, src, n + 1 => src.headD 0 :: strncpy ds src.tail n

namespace GCodeQueue

/-- queue.h line 113: `static void clear() { ring_buffer.clear(); }`. -/
def clear (q : GCodeQueue) : GCodeQueue :=
  { q with ring_buffer := q.ring_buffer.clear }

/-- queue.h line 131:
`static inline void inject_P(PGM_P const pgcode) { injected_commands_P = pgcode; }`. -/
def inject_P (q : GCodeQueue) (pgcode : List Nat) : GCodeQueue :=
  { q with injected_commands_P := some pgcode }

/-- queue.h lines 137-139: `static inline void inject(char * const gcode)
{ strncpy(injected_commands, gcode, sizeof(injected_commands) - 1); }`
with `sizeof(injected_commands) = 64`. -/
def inject (q : GCodeQueue) (gcode : List Nat) : GCodeQueue :=
  { q with injected_commands := strncpy q.injected_commands gcode 63 }

/-- queue.h line 160: `static bool has_commands_queued()
{ return ring_buffer.length || injected_commands_P || injected_commands[0]; }`
(C truthiness: nonzero length, non-null pointer, nonzero first byte). -/
def has_commands_queued (q : GCodeQueue) : Bool :=
  decide (q.ring_buffer.length ≠ 0) || q.injected_commands_P.isSome ||
    decide (q.injected_commands.getD 0 0 ≠ 0)

/-- queue.h line 200: `static inline void set_current_line_number(long n)
{ serial_state[ring_buffer.command_port()].last_N = n; }`. -/
def set_current_line_number (q : GCodeQueue) (n : Int) : GCodeQueue :=
  let i := q.ring_buffer.command_port.toNat
  let s := q.serial_state.getD i default
  { q with serial_state := q.serial_state.set i { s with last_N := n } }

end GCodeQueue

/-! ## Operation sequences on the ring

The intake code mutates the ring only through `enqueue` (producers) and
`pop` (the dispatcher, `advance_pos(index_r, -1)` after a command is
processed).  `QOp` is one such operation, `runOps` a whole history. -/

/-- One intake-side operation on the command ring. -/
inductive QOp where
  | enq (cmd : List Nat) (skip : Bool) (port : Int)
  | pop
deriving Repr, DecidableEq

/-- Apply one operation to the ring. -/
def QOp.apply (BUFSIZE MAX_CMD_SIZE : Nat) (rb : RingBuffer) : QOp → RingBuffer
  | QOp.enq cmd skip port => (rb.enqueue BUFSIZE MAX_CMD_SIZE cmd skip port).2
  | QOp.pop => rb.pop BUFSIZE

/-- Apply a sequence of operations to the ring, oldest first. -/
def runOps (BUFSIZE MAX_CMD_SIZE : Nat) (ops : List QOp) (rb : RingBuffer) : RingBuffer :=
  ops.foldl (QOp.apply BUFSIZE MAX_CMD_SIZE) rb

/-- The ring invariant exactly as the spec states it:
`(read_index + length) mod BUFSIZE == write_index` and
`0 ≤ length ≤ BUFSIZE` (the lower bound is the type). -/
def ringInv (BUFSIZE : Nat) (rb : RingBuffer) : Prop :=
  (rb.index_r + rb.length) % BUFSIZE = rb.index_w ∧ rb.length ≤ BUFSIZE

/-- Well-formedness of the ring: the spec's invariant strengthened with
the bounds of the two indices, which the code maintains as well. -/
def ringWF (BUFSIZE : Nat) (rb : RingBuffer) : Prop :=
  rb.length ≤ BUFSIZE ∧ rb.index_r < BUFSIZE ∧ rb.index_w < BUFSIZE ∧
    (rb.index_r + rb.length) % BUFSIZE = rb.index_w

theorem ringWF.to_ringInv {B : Nat} {rb : RingBuffer} (h : ringWF B rb) : ringInv B rb :=
  ⟨h.2.2.2, h.1⟩

theorem ringWF_clear {B : Nat} (hB : 0 < B) (rb : RingBuffer) :
    ringWF B rb.clear := by
  refine ⟨Nat.zero_le _, hB, hB, ?_⟩
  simp [RingBuffer.clear]

/-- `advance_pos(index_w, 1)` preserves well-formedness provided the ring
is not full. -/
theorem ringWF_advance_w {B : Nat} (hB : B ≤ 255) {rb : RingBuffer}
    (h : ringWF B rb) (hlen : rb.length < B) :
    ringWF B (rb.advance_pos B PosSel.w 1) := by
  obtain ⟨h1, h2, h3, h4⟩ := h
  have hmod : (rb.index_w + 1) % 256 = rb.index_w + 1 := Nat.mod_eq_of_lt (by omega)
  have hlen1 : (((rb.length : Int) + 1) % 256).toNat = rb.length + 1 := by omega
  have hkey : (rb.index_r + (rb.length + 1)) % B = (rb.index_w + 1) % B := by
    calc (rb.index_r + (rb.length + 1)) % B
        = ((rb.index_r + rb.length) % B + 1) % B := by
          rw [Nat.mod_add_mod, Nat.add_assoc]
      _ = (rb.index_w + 1) % B := by rw [h4]
  unfold RingBuffer.advance_pos ringWF
  dsimp only
  simp only [hmod, hlen1]
  by_cases hc : B ≤ rb.index_w + 1
  · simp only [if_pos hc]
    have hw : rb.index_w + 1 = B := by omega
    refine ⟨by omega, h2, by omega, ?_⟩
    rw [hkey, hw, Nat.mod_self]
  · simp only [if_neg hc]
    refine ⟨by omega, h2, by omega, ?_⟩
    rw [hkey, Nat.mod_eq_of_lt (by omega)]

/-- `advance_pos(index_r, -1)` preserves well-formedness provided the ring
is not empty. -/
theorem ringWF_advance_r {B : Nat} (hB : B ≤ 255) {rb : RingBuffer}
    (h : ringWF B rb) (hlen : 0 < rb.length) :
    ringWF B (rb.advance_pos B PosSel.r (-1)) := by
  obtain ⟨h1, h2, h3, h4⟩ := h
  have hmod : (rb.index_r + 1) % 256 = rb.index_r + 1 := Nat.mod_eq_of_lt (by omega)
  have hlen1 : (((rb.length : Int) + -1) % 256).toNat = rb.length - 1 := by omega
  unfold RingBuffer.advance_pos ringWF
  dsimp only
  simp only [hmod, hlen1]
  by_cases hc : B ≤ rb.index_r + 1
  · simp only [if_pos hc]
    have hr : rb.index_r + 1 = B := by omega
    refine ⟨by omega, by omega, h3, ?_⟩
    have he : rb.index_r + rb.length = B + (rb.length - 1) := by omega
    rw [he, Nat.add_mod_left] at h4
    simpa using h4
  · simp only [if_neg hc]
    refine ⟨by omega, by omega, h3, ?_⟩
    have he : rb.index_r + 1 + (rb.length - 1) = rb.index_r + rb.length := by omega
    rw [he, h4]

/-- `enqueue` preserves well-formedness unconditionally (it refuses a full
ring). -/
theorem ringWF_enqueue {B : Nat} (M : Nat) (hB : B ≤ 255) {rb : RingBuffer}
    (h : ringWF B rb) (cmd : List Nat) (skip : Bool) (port : Int) :
    ringWF B (rb.enqueue B M cmd skip port).2 := by
  unfold RingBuffer.enqueue
  split
  · exact h
  · rename_i hne
    unfold RingBuffer.commit_command
    exact ringWF_advance_w hB ⟨h.1, h.2.1, h.2.2.1, h.2.2.2⟩
      (Nat.lt_of_le_of_ne h.1 hne)

/-- `pop` preserves well-formedness unconditionally (its precondition is a
guard in the model). -/
theorem ringWF_pop {B : Nat} (hB : B ≤ 255) {rb : RingBuffer} (h : ringWF B rb) :
    ringWF B (rb.pop B) := by
  unfold RingBuffer.pop
  split
  · exact ringWF_advance_r hB h (by assumption)
  · exact h

/-- Any operation sequence preserves well-formedness. -/
theorem ringWF_runOps {B : Nat} (M : Nat) (hB : B ≤ 255) (ops : List QOp)
    {rb : RingBuffer} (h : ringWF B rb) : ringWF B (runOps B M ops rb) := by
  induction ops generalizing rb with
  | nil => exact h
  | cons op ops ih =>
    cases op with
    | enq cmd skip port => exact ih (ringWF_enqueue M hB h cmd skip port)
    | pop => exact ih (ringWF_pop hB h)

/-! ## FIFO contents of the ring

`contents` reads off the queued commands in arrival order (the slots in
`[index_r, index_r + length)` taken modulo `BUFSIZE`); `runModel` is the
abstract FIFO the spec describes.  The simulation lemmas below show the
ring implements that FIFO. -/

/-- The queued commands in arrival order. -/
def RingBuffer.contents (BUFSIZE : Nat) (rb : RingBuffer) : List CommandLine :=
  (List.range rb.length).map fun i => rb.commands.getD ((rb.index_r + i) % BUFSIZE) default

/-- The abstract FIFO effect of one operation, per spec section 4.1. -/
def QOp.applyModel (BUFSIZE MAX_CMD_SIZE : Nat) (l : List CommandLine) : QOp → List CommandLine
  | QOp.enq cmd skip port =>
      if l.length = BUFSIZE then l
      else l ++ [{ buffer := cmd.take (MAX_CMD_SIZE - 1), skip_ok := skip, port := port }]
  | QOp.pop => l.tail

/-- The abstract FIFO after a sequence of operations. -/
def runModel (BUFSIZE MAX_CMD_SIZE : Nat) (ops : List QOp) (l : List CommandLine) : List CommandLine :=
  ops.foldl (QOp.applyModel BUFSIZE MAX_CMD_SIZE) l

theorem getD_set_lt {α : Type} [Inhabited α] (l : List α) {i : Nat} (a : α)
    (h : i < l.length) : (l.set i a).getD i default = a := by
  rw [List.getD_eq_getElem?_getD, List.getElem?_set_self h]
  rfl

theorem getD_set_ne {α : Type} [Inhabited α] (l : List α) {i j : Nat} (a : α)
    (h : i ≠ j) : (l.set i a).getD j default = l.getD j default := by
  rw [List.getD_eq_getElem?_getD, List.getElem?_set_ne h, ← List.getD_eq_getElem?_getD]

/-- Two offsets strictly inside a window shorter than `B` land on distinct
slots. -/
theorem window_mod_ne {B i j : Nat} (a : Nat) (hij : i < j) (hj : j - i < B) :
    (a + i) % B ≠ (a + j) % B := by
  intro hEq
  have h2 : B ∣ (a + j) - (a + i) := (Nat.modEq_iff_dvd' (by omega)).mp hEq
  have h3 : (a + j) - (a + i) = j - i := by omega
  rw [h3] at h2
  have := Nat.le_of_dvd (by omega) h2
  omega

theorem contents_length (B : Nat) (rb : RingBuffer) :
    (rb.contents B).length = rb.length := by
  simp [RingBuffer.contents]

theorem contents_clear (B : Nat) (rb : RingBuffer) : rb.clear.contents B = [] := by
  simp [RingBuffer.contents, RingBuffer.clear]

theorem commands_length_enqueue (B M : Nat) (cmd : List Nat) (skip : Bool) (port : Int)
    (rb : RingBuffer) :
    (rb.enqueue B M cmd skip port).2.commands.length = rb.commands.length := by
  unfold RingBuffer.enqueue RingBuffer.commit_command RingBuffer.advance_pos
  split <;> simp

theorem commands_length_pop (B : Nat) (rb : RingBuffer) :
    (rb.pop B).commands.length = rb.commands.length := by
  unfold RingBuffer.pop RingBuffer.advance_pos
  split <;> rfl

/-- A successful `enqueue` appends the (truncated, tagged) command to the
arrival-order contents; a refused one leaves them unchanged. -/
theorem contents_enqueue {B : Nat} (M : Nat) (hB : B ≤ 255) {rb : RingBuffer}
    (h : ringWF B rb) (hc : rb.commands.length = B) (cmd : List Nat) (skip : Bool)
    (port : Int) :
    (rb.enqueue B M cmd skip port).2.contents B =
      QOp.applyModel B M (rb.contents B) (QOp.enq cmd skip port) := by
  by_cases hfull : rb.length = B
  · simp [RingBuffer.enqueue, QOp.applyModel, contents_length, hfull]
  · have hlen : rb.length < B := Nat.lt_of_le_of_ne h.1 hfull
    have hw : rb.index_w < rb.commands.length := by rw [hc]; exact h.2.2.1
    simp only [RingBuffer.enqueue, if_neg hfull]
    unfold RingBuffer.commit_command RingBuffer.advance_pos
    dsimp only
    simp only [List.set_set, getD_set_lt _ _ hw]
    unfold RingBuffer.contents QOp.applyModel
    dsimp only
    rw [List.length_map, List.length_range, if_neg hfull]
    have hlen1 : (((rb.length : Int) + 1) % 256).toNat = rb.length + 1 := by omega
    rw [hlen1, List.range_succ, List.map_append]
    congr 1
    · refine List.map_congr_left fun i hi => ?_
      have hi' : i < rb.length := by simpa using hi
      have hne : (rb.index_r + i) % B ≠ rb.index_w := by
        rw [← h.2.2.2]
        exact window_mod_ne rb.index_r hi' (by omega)
      exact getD_set_ne _ _ (fun hEq => hne hEq.symm)
    · simp only [List.map_cons, List.map_nil]
      rw [h.2.2.2, getD_set_lt _ _ hw]

/-- `pop` drops the oldest queued command from the arrival-order contents. -/
theorem contents_pop {B : Nat} (hB : B ≤ 255) {rb : RingBuffer} (h : ringWF B rb) :
    (rb.pop B).contents B = (rb.contents B).tail := by
  unfold RingBuffer.pop
  by_cases hlen : 0 < rb.length
  · rw [if_pos hlen]
    unfold RingBuffer.advance_pos RingBuffer.contents
    dsimp only
    have hmod : (rb.index_r + 1) % 256 = rb.index_r + 1 := by
      have := h.2.1
      exact Nat.mod_eq_of_lt (by omega)
    have hlB : rb.length ≤ B := h.1
    have hlen1 : (((rb.length : Int) + -1) % 256).toNat = rb.length - 1 := by omega
    rw [hmod, hlen1]
    have hsucc : rb.length = (rb.length - 1) + 1 := by omega
    conv_rhs => rw [hsucc, List.range_succ_eq_map]
    rw [List.map_cons, List.tail_cons, List.map_map]
    refine List.map_congr_left fun i hi => ?_
    simp only [Function.comp]
    by_cases hwrap : B ≤ rb.index_r + 1
    · have hr : rb.index_r + 1 = B := by
        have := h.2.1
        omega
      rw [if_pos hwrap]
      have he : rb.index_r + Nat.succ i = B + i := by omega
      rw [he, Nat.add_mod_left, Nat.zero_add]
    · rw [if_neg hwrap]
      have he : rb.index_r + Nat.succ i = rb.index_r + 1 + i := by omega
      rw [he]
  · rw [if_neg hlen]
    have h0 : rb.length = 0 := by omega
    simp [RingBuffer.contents, h0]

/-- The ring, driven by any operation sequence, implements the abstract
FIFO. -/
theorem contents_runOps {B : Nat} (M : Nat) (hB : B ≤ 255) (ops : List QOp)
    {rb : RingBuffer} (h : ringWF B rb) (hc : rb.commands.length = B) :
    (runOps B M ops rb).contents B = runModel B M ops (rb.contents B) := by
  induction ops generalizing rb with
  | nil => rfl
  | cons op ops ih =>
    cases op with
    | enq cmd skip port =>
      have hstep : runOps B M (QOp.enq cmd skip port :: ops) rb =
          runOps B M ops (rb.enqueue B M cmd skip port).2 := rfl
      rw [hstep, ih (ringWF_enqueue M hB h cmd skip port)
        (by rw [commands_length_enqueue]; exact hc), contents_enqueue M hB h hc]
      rfl
    | pop =>
      have hstep : runOps B M (QOp.pop :: ops) rb = runOps B M ops (rb.pop B) := rfl
      rw [hstep, ih (ringWF_pop hB h) (by rw [commands_length_pop]; exact hc),
        contents_pop hB h]
      rfl

/-- The head of the arrival-order contents is the command at `index_r`. -/
theorem contents_headD {B : Nat} {rb : RingBuffer} (h : ringWF B rb)
    (hlen : 0 < rb.length) :
    (rb.contents B).headD default = rb.peek_next_command := by
  unfold RingBuffer.contents RingBuffer.peek_next_command
  have hsucc : rb.length = (rb.length - 1) + 1 := by omega
  rw [hsucc, List.range_succ_eq_map, List.map_cons, List.headD_cons]
  rw [Nat.add_zero, Nat.mod_eq_of_lt h.2.1]

/-! ## Properties of `strncpy` and the injected-command scratch buffer -/

/-- The NUL-terminated string content of a character array: its bytes up
to (excluding) the first NUL. -/
def cstring (l : List Nat) : List Nat :=
  l.takeWhile fun b => decide (b ≠ 0)

theorem strncpy_length (dest src : List Nat) (n : Nat) :
    (strncpy dest src n).length = dest.length := by
  induction dest generalizing src n with
  | nil => cases n <;> rfl
  | cons d ds ih =>
    cases n with
    | zero => rfl
    | succ n => simp [strncpy, ih]

/-- `strncpy` never writes at or past index `n`. -/
theorem strncpy_getD_ge (dest src : List Nat) {n i : Nat} (h : n ≤ i) :
    (strncpy dest src n).getD i 0 = dest.getD i 0 := by
  induction dest generalizing src n i with
  | nil => cases n <;> rfl
  | cons d ds ih =>
    cases n with
    | zero => rfl
    | succ n =>
      cases i with
      | zero => omega
      | succ i =>
        simp only [strncpy, List.getD_cons_succ]
        exact ih _ (by omega)

/-- If the byte at index `n` of the destination is NUL and the source has
no NUL bytes, the string content after `strncpy _ _ n` is the source
truncated to `n` bytes. -/
theorem cstring_strncpy (n : Nat) : ∀ (dest src : List Nat),
    (∀ b ∈ src, b ≠ 0) → n < dest.length → dest.getD n 0 = 0 →
    cstring (strncpy dest src n) = src.take n := by
  induction n with
  | zero =>
    intro dest src hsrc hn h0
    cases dest with
    | nil => simp at hn
    | cons d ds =>
      have hd : d = 0 := by simpa using h0
      simp [strncpy, cstring, hd]
  | succ n ih =>
    intro dest src hsrc hn h0
    cases dest with
    | nil => simp at hn
    | cons d ds =>
      cases src with
      | nil => simp [strncpy, cstring]
      | cons a as =>
        have ha : a ≠ 0 := hsrc a (by simp)
        have hdec : (decide (a ≠ 0)) = true := by simpa using ha
        simp only [strncpy, List.headD_cons, List.tail_cons, cstring,
          List.takeWhile, hdec]
        have htail : cstring (strncpy ds as n) = as.take n :=
          ih ds as (fun b hb => hsrc b (by simp [hb]))
            (by simpa using hn) (by simpa using h0)
        simp only [cstring] at htail
        rw [htail, List.take_succ_cons]

/-! ## Concrete fixtures used by the witnesses -/

/-- A concrete cleared ring with `BUFSIZE = 4` slots. -/
def rbW : RingBuffer :=
  { length := 0, index_r := 0, index_w := 0, commands := List.replicate 4 default }

/-- A concrete intake state: one serial port, cleared ring, both injectors
drained (the scratch buffer zero-initialised, as static storage is). -/
def qW : GCodeQueue :=
  { serial_state := [default], ring_buffer := rbW,
    injected_commands_P := none, injected_commands := List.replicate 64 0 }

/-! ## The claims -/

/-- **C1.** After any sequence of enqueue and pop operations starting from
the cleared ring, the ring satisfies `(index_r + length) % BUFSIZE =
index_w` and `length ≤ BUFSIZE`; in particular `clear` establishes this
invariant, and `advance_pos` preserves (the well-formed strengthening of)
it when invoked with `inc = +1` on `index_w` under `length < BUFSIZE`,
and with `inc = -1` on `index_r` under `length > 0`. -/
theorem C1_ring_invariant (B M : Nat) (hB0 : 0 < B) (hB : B ≤ 255) :
    (∀ (rb0 : RingBuffer) (ops : List QOp), ringInv B (runOps B M ops rb0.clear))
    ∧ (∀ rb0 : RingBuffer, ringInv B rb0.clear)
    ∧ (∀ rb : RingBuffer, ringWF B rb → rb.length < B →
        ringWF B (rb.advance_pos B PosSel.w 1))
    ∧ (∀ rb : RingBuffer, ringWF B rb → 0 < rb.length →
        ringWF B (rb.advance_pos B PosSel.r (-1))) := by
  refine ⟨?_, ?_, ?_, ?_⟩
  · intro rb0 ops
    exact (ringWF_runOps M hB ops (ringWF_clear hB0 rb0)).to_ringInv
  · intro rb0
    exact (ringWF_clear hB0 rb0).to_ringInv
  · intro rb h hl
    exact ringWF_advance_w hB h hl
  · intro rb h hl
    exact ringWF_advance_r hB h hl

theorem C1_ring_invariant_witness :
    0 < 4 ∧ 4 ≤ 255 ∧
      ringInv 4 (runOps 4 96
        [QOp.enq [71, 50, 56] false 0, QOp.enq [77, 56, 52] true (-1), QOp.pop]
        rbW.clear) :=
  ⟨by decide, by decide, (C1_ring_invariant 4 96 (by decide) (by decide)).1 rbW _⟩

/-- **C2.** `enqueue` returns `false` and leaves the whole ring unchanged
when `length = BUFSIZE`; otherwise it writes the command truncated to
`MAX_CMD_SIZE - 1` bytes together with the `skip_ok` and port tags into
slot `index_w` (touching no other slot), advances `index_w` modulo
`BUFSIZE`, increments `length`, and returns `true`. -/
theorem C2_enqueue_spec (B M : Nat) (hB : B ≤ 255) (rb : RingBuffer)
    (h : ringWF B rb) (hcl : rb.commands.length = B)
    (cmd : List Nat) (skip : Bool) (port : Int) :
    (rb.length = B → rb.enqueue B M cmd skip port = (false, rb))
    ∧ (rb.length ≠ B →
        rb.enqueue B M cmd skip port =
          (true,
            { rb with
              commands := rb.commands.set rb.index_w
                { buffer := cmd.take (M - 1), skip_ok := skip, port := port },
              index_w := (rb.index_w + 1) % B,
              length := rb.length + 1 })) := by
  constructor
  · intro hf
    simp [RingBuffer.enqueue, hf]
  · intro hne
    have hlen : rb.length < B := Nat.lt_of_le_of_ne h.1 hne
    have hw : rb.index_w < rb.commands.length := by rw [hcl]; exact h.2.2.1
    have hwB : rb.index_w < B := h.2.2.1
    simp only [RingBuffer.enqueue, if_neg hne]
    unfold RingBuffer.commit_command RingBuffer.advance_pos
    dsimp only
    simp only [List.set_set, getD_set_lt _ _ hw]
    have hmod : (rb.index_w + 1) % 256 = rb.index_w + 1 := Nat.mod_eq_of_lt (by omega)
    have hlen1 : (((rb.length : Int) + 1) % 256).toNat = rb.length + 1 := by omega
    rw [hmod, hlen1]
    by_cases hwrap : B ≤ rb.index_w + 1
    · rw [if_pos hwrap]
      have hz : (rb.index_w + 1) % B = 0 := by
        have he : rb.index_w + 1 = B := by omega
        rw [he, Nat.mod_self]
      rw [hz]
    · rw [if_neg hwrap, Nat.mod_eq_of_lt (by omega)]

theorem C2_enqueue_spec_witness :
    4 ≤ 255 ∧ ringWF 4 rbW ∧ rbW.commands.length = 4 ∧
      ((rbW.length = 4 → rbW.enqueue 4 96 [71, 50, 56] false 0 = (false, rbW)) ∧
       (rbW.length ≠ 4 →
         rbW.enqueue 4 96 [71, 50, 56] false 0 =
           (true,
             { rbW with
               commands := rbW.commands.set rbW.index_w
                 { buffer := List.take (96 - 1) [71, 50, 56], skip_ok := false,
                   port := 0 },
               index_w := (rbW.index_w + 1) % 4,
               length := rbW.length + 1 }))) :=
  ⟨by decide, ⟨by decide, by decide, by decide, by decide⟩, by decide,
    C2_enqueue_spec 4 96 (by decide) rbW
      ⟨by decide, by decide, by decide, by decide⟩ (by decide) [71, 50, 56] false 0⟩

/-- **C3.** `full(n)` returns true iff `length > BUFSIZE - n` for
`1 ≤ n ≤ BUFSIZE`, and under the invariant `length ≤ BUFSIZE` the default
`full(1)` holds exactly when `length = BUFSIZE`. -/
theorem C3_full_iff (B n : Nat) (rb : RingBuffer) (h1 : 1 ≤ n) (h2 : n ≤ B) :
    (rb.full B n = true ↔ rb.length > B - n)
    ∧ (rb.length ≤ B → (rb.full B 1 = true ↔ rb.length = B)) := by
  unfold RingBuffer.full
  constructor
  · rw [decide_eq_true_eq]
    omega
  · intro hle
    rw [decide_eq_true_eq]
    omega

theorem C3_full_iff_witness :
    1 ≤ 1 ∧ 1 ≤ 4 ∧
      ((rbW.full 4 1 = true ↔ rbW.length > 4 - 1) ∧
        (rbW.length ≤ 4 → (rbW.full 4 1 = true ↔ rbW.length = 4))) :=
  ⟨by decide, by decide, C3_full_iff 4 1 rbW (by decide) (by decide)⟩

/-- **C4.** `GCodeQueue::clear` zeroes `length`, `index_r` and `index_w`
(so the ring is empty afterwards) and modifies no other intake state:
the serial states and both injector slots are unchanged. -/
theorem C4_clear_frame (q : GCodeQueue) :
    q.clear.ring_buffer.length = 0 ∧ q.clear.ring_buffer.index_r = 0 ∧
    q.clear.ring_buffer.index_w = 0 ∧ q.clear.ring_buffer.empty = true ∧
    q.clear.serial_state = q.serial_state ∧
    q.clear.injected_commands_P = q.injected_commands_P ∧
    q.clear.injected_commands = q.injected_commands := by
  unfold GCodeQueue.clear RingBuffer.clear RingBuffer.empty RingBuffer.occupied
  simp

/-- **C5.** `inject` writes at most `sizeof(injected_commands) - 1 = 63`
bytes of `gcode` into the scratch buffer: byte 63 is untouched, and
assuming it was NUL beforehand (zero static initialisation, preserved by
every operation), the buffer afterwards holds a NUL-terminated string
whose content is `gcode` silently truncated to 63 bytes. -/
theorem C5_inject_truncation (q : GCodeQueue) (gcode : List Nat)
    (hlen : q.injected_commands.length = 64) (hg : ∀ b ∈ gcode, b ≠ 0) :
    ((q.inject gcode).injected_commands.length = 64)
    ∧ ((q.inject gcode).injected_commands.getD 63 0 = q.injected_commands.getD 63 0)
    ∧ (q.injected_commands.getD 63 0 = 0 →
        (∃ i, i < 64 ∧ (q.inject gcode).injected_commands.getD i 0 = 0)
        ∧ cstring (q.inject gcode).injected_commands = gcode.take 63) := by
  unfold GCodeQueue.inject
  dsimp only
  refine ⟨by rw [strncpy_length, hlen], strncpy_getD_ge _ _ (by omega), ?_⟩
  intro h0
  refine ⟨⟨63, by omega, ?_⟩, ?_⟩
  · rw [strncpy_getD_ge _ _ (by omega)]
    exact h0
  · exact cstring_strncpy 63 _ gcode hg (by omega) h0

theorem C5_inject_truncation_witness :
    qW.injected_commands.length = 64 ∧ (∀ b ∈ [71, 50, 56], b ≠ 0) ∧
      (((qW.inject [71, 50, 56]).injected_commands.length = 64)
      ∧ ((qW.inject [71, 50, 56]).injected_commands.getD 63 0 =
          qW.injected_commands.getD 63 0)
      ∧ (qW.injected_commands.getD 63 0 = 0 →
          (∃ i, i < 64 ∧ (qW.inject [71, 50, 56]).injected_commands.getD i 0 = 0)
          ∧ cstring (qW.inject [71, 50, 56]).injected_commands =
              List.take 63 [71, 50, 56])) :=
  ⟨by decide, by decide,
    C5_inject_truncation qW [71, 50, 56] (by decide) (by decide)⟩

/-- **C6.** Setting an injector while it is non-empty replaces the pending
content: a second `inject_P` leaves the pointer at the new string exactly
as a lone `inject_P` would, and a second `inject` leaves the scratch
buffer's NUL-terminated prefix equal to the new string's 63-byte
truncation, with no remnant of the old content. -/
theorem C6_inject_replaces (q : GCodeQueue) (a b : List Nat)
    (hlen : q.injected_commands.length = 64)
    (hnul : q.injected_commands.getD 63 0 = 0)
    (hb : ∀ x ∈ b, x ≠ 0) (hab : a.length ≤ b.length ∨ 63 ≤ b.length) :
    (((q.inject_P a).inject_P b).injected_commands_P = some b
      ∧ (q.inject_P b).injected_commands_P = some b)
    ∧ cstring ((q.inject a).inject b).injected_commands = b.take 63 := by
  refine ⟨⟨rfl, rfl⟩, ?_⟩
  unfold GCodeQueue.inject
  dsimp only
  refine cstring_strncpy 63 _ b hb ?_ ?_
  · rw [strncpy_length]
    omega
  · rw [strncpy_getD_ge _ _ (by omega)]
    exact hnul

theorem C6_inject_replaces_witness :
    qW.injected_commands.length = 64 ∧ qW.injected_commands.getD 63 0 = 0 ∧
      (∀ x ∈ [71, 50, 56], x ≠ 0) ∧
      (List.length [77, 49] ≤ List.length [71, 50, 56] ∨ 63 ≤ List.length [71, 50, 56]) ∧
      ((((qW.inject_P [77, 49]).inject_P [71, 50, 56]).injected_commands_P =
          some [71, 50, 56]
        ∧ (qW.inject_P [71, 50, 56]).injected_commands_P = some [71, 50, 56])
      ∧ cstring ((qW.inject [77, 49]).inject [71, 50, 56]).injected_commands =
          List.take 63 [71, 50, 56]) :=
  ⟨by decide, by decide, by decide, by decide,
    C6_inject_replaces qW [77, 49] [71, 50, 56] (by decide) (by decide)
      (by decide) (by decide)⟩

/-- **C7.** `set_current_line_number(n)` sets `last_N` of exactly the
serial port recorded in the command at the ring's read position
(`command_port()`) to `n`, leaving `last_N` of every other port, all
other fields of every `SerialState`, and the rest of the intake state
unchanged. -/
theorem C7_set_current_line_number (q : GCodeQueue) (n : Int)
    (hport : 0 ≤ q.ring_buffer.command_port)
    (hlt : q.ring_buffer.command_port.toNat < q.serial_state.length) :
    ((q.set_current_line_number n).serial_state.getD
        q.ring_buffer.command_port.toNat default).last_N = n
    ∧ (∀ j, j ≠ q.ring_buffer.command_port.toNat →
        (q.set_current_line_number n).serial_state.getD j default =
          q.serial_state.getD j default)
    ∧ ((q.set_current_line_number n).serial_state.getD
          q.ring_buffer.command_port.toNat default).count =
        (q.serial_state.getD q.ring_buffer.command_port.toNat default).count
    ∧ ((q.set_current_line_number n).serial_state.getD
          q.ring_buffer.command_port.toNat default).line_buffer =
        (q.serial_state.getD q.ring_buffer.command_port.toNat default).line_buffer
    ∧ ((q.set_current_line_number n).serial_state.getD
          q.ring_buffer.command_port.toNat default).input_state =
        (q.serial_state.getD q.ring_buffer.command_port.toNat default).input_state
    ∧ (q.set_current_line_number n).ring_buffer = q.ring_buffer
    ∧ (q.set_current_line_number n).injected_commands_P = q.injected_commands_P
    ∧ (q.set_current_line_number n).injected_commands = q.injected_commands := by
  unfold GCodeQueue.set_current_line_number
  dsimp only
  refine ⟨?_, ?_, ?_, ?_, ?_, rfl, rfl, rfl⟩
  · rw [getD_set_lt _ _ hlt]
  · intro j hj
    exact getD_set_ne _ _ fun hEq => hj hEq.symm
  · rw [getD_set_lt _ _ hlt]
  · rw [getD_set_lt _ _ hlt]
  · rw [getD_set_lt _ _ hlt]

theorem C7_set_current_line_number_witness :
    0 ≤ qW.ring_buffer.command_port ∧
      qW.ring_buffer.command_port.toNat < qW.serial_state.length ∧
      (((qW.set_current_line_number 42).serial_state.getD
          qW.ring_buffer.command_port.toNat default).last_N = 42
      ∧ (∀ j, j ≠ qW.ring_buffer.command_port.toNat →
          (qW.set_current_line_number 42).serial_state.getD j default =
            qW.serial_state.getD j default)
      ∧ ((qW.set_current_line_number 42).serial_state.getD
            qW.ring_buffer.command_port.toNat default).count =
          (qW.serial_state.getD qW.ring_buffer.command_port.toNat default).count
      ∧ ((qW.set_current_line_number 42).serial_state.getD
            qW.ring_buffer.command_port.toNat default).line_buffer =
          (qW.serial_state.getD qW.ring_buffer.command_port.toNat default).line_buffer
      ∧ ((qW.set_current_line_number 42).serial_state.getD
            qW.ring_buffer.command_port.toNat default).input_state =
          (qW.serial_state.getD qW.ring_buffer.command_port.toNat default).input_state
      ∧ (qW.set_current_line_number 42).ring_buffer = qW.ring_buffer
      ∧ (qW.set_current_line_number 42).injected_commands_P = qW.injected_commands_P
      ∧ (qW.set_current_line_number 42).injected_commands = qW.injected_commands) :=
  ⟨by decide, by decide, C7_set_current_line_number qW 42 (by decide) (by decide)⟩

/-- **C8.** On any ring reached from the cleared ring with `length > 0`,
`peek_next_command` returns the slot at `index_r`, which is the oldest
queued command (the head of the arrival-order FIFO), and
`peek_next_command_string` returns that command's buffer; both are pure
reads of the state. -/
theorem C8_peek_oldest (B M : Nat) (hB0 : 0 < B) (hB : B ≤ 255)
    (rb0 : RingBuffer) (ops : List QOp) (hcl : rb0.commands.length = B)
    (hlen : 0 < (runOps B M ops rb0.clear).length) :
    (runOps B M ops rb0.clear).peek_next_command =
      (runOps B M ops rb0.clear).commands.getD (runOps B M ops rb0.clear).index_r
        default
    ∧ (runOps B M ops rb0.clear).peek_next_command_string =
      (runOps B M ops rb0.clear).peek_next_command.buffer
    ∧ (runOps B M ops rb0.clear).peek_next_command =
      (runModel B M ops []).headD default := by
  refine ⟨rfl, rfl, ?_⟩
  have hwf := ringWF_runOps M hB ops (ringWF_clear hB0 rb0)
  rw [← contents_headD hwf hlen,
    contents_runOps M hB ops (ringWF_clear hB0 rb0) hcl, contents_clear]

theorem C8_peek_oldest_witness :
    0 < 4 ∧ 4 ≤ 255 ∧ rbW.commands.length = 4 ∧
      0 < (runOps 4 96 [QOp.enq [71, 50, 56] true (-1)] rbW.clear).length ∧
      ((runOps 4 96 [QOp.enq [71, 50, 56] true (-1)] rbW.clear).peek_next_command =
        (runOps 4 96 [QOp.enq [71, 50, 56] true (-1)] rbW.clear).commands.getD
          (runOps 4 96 [QOp.enq [71, 50, 56] true (-1)] rbW.clear).index_r default
      ∧ (runOps 4 96 [QOp.enq [71, 50, 56] true (-1)] rbW.clear).peek_next_command_string =
        (runOps 4 96 [QOp.enq [71, 50, 56] true (-1)] rbW.clear).peek_next_command.buffer
      ∧ (runOps 4 96 [QOp.enq [71, 50, 56] true (-1)] rbW.clear).peek_next_command =
        (runModel 4 96 [QOp.enq [71, 50, 56] true (-1)] []).headD default) :=
  ⟨by decide, by decide, by decide, by decide,
    C8_peek_oldest 4 96 (by decide) (by decide) rbW
      [QOp.enq [71, 50, 56] true (-1)] (by decide) (by decide)⟩

/-- **C9.** `has_commands_queued` is true iff the ring is non-empty or the
ROM injector pointer is non-null or the RAM scratch buffer's first byte is
not NUL; equivalently it is false exactly when the ring is `empty` and
both injectors are drained. -/
theorem C9_has_commands_queued (q : GCodeQueue) :
    (q.has_commands_queued = true ↔
      (q.ring_buffer.length ≠ 0 ∨ q.injected_commands_P ≠ none ∨
        q.injected_commands.getD 0 0 ≠ 0))
    ∧ (q.has_commands_queued = false ↔
      (q.ring_buffer.empty = true ∧ q.injected_commands_P = none ∧
        q.injected_commands.getD 0 0 = 0)) := by
  unfold GCodeQueue.has_commands_queued RingBuffer.empty RingBuffer.occupied
  constructor
  · simp [Option.isSome_iff_ne_none]
    tauto
  · simp [Option.isSome_iff_ne_none]
    tauto

/-- **C10.** `GCodeQueue::clear` does not cancel pending injected
commands: with either injector pending, `has_commands_queued` still
returns true immediately after `clear`, even though the ring itself is
then empty. -/
theorem C10_clear_keeps_injected (q : GCodeQueue)
    (h : q.injected_commands_P ≠ none ∨ q.injected_commands.getD 0 0 ≠ 0) :
    q.clear.has_commands_queued = true ∧ q.clear.ring_buffer.empty = true := by
  constructor
  · unfold GCodeQueue.clear GCodeQueue.has_commands_queued RingBuffer.clear
    dsimp only
    rcases h with h | h
    · simp [Option.isSome_iff_ne_none, h]
    · rw [List.getD_eq_getElem?_getD] at h
      simp [h]
  · rfl

theorem C10_clear_keeps_injected_witness :
    ((qW.inject_P [71, 50, 56]).injected_commands_P ≠ none ∨
      (qW.inject_P [71, 50, 56]).injected_commands.getD 0 0 ≠ 0) ∧
      ((qW.inject_P [71, 50, 56]).clear.has_commands_queued = true ∧
        (qW.inject_P [71, 50, 56]).clear.ring_buffer.empty = true) :=
  ⟨by decide, C10_clear_keeps_injected (qW.inject_P [71, 50, 56]) (by decide)⟩

end MarlinQueue
